import Mathlib

/-!
# Verification of the locale loader and cross-locale schema unifier

Shallow embedding of `src/leptos_i18n_macro/src/load_locales/locale.rs`.

Modelling conventions:
* `Rc<Key>` is modelled as `Key := String` (the spec states a `Key` is an
  interned string whose equality and hashing are by name, so identity is the
  name itself).
* `HashMap<Rc<Key>, V>` is modelled as an association list
  `List (Key × V)`; the hash-map invariant (no duplicate keys) appears as a
  `Nodup` hypothesis where a theorem needs it.  `HashSet` is a `Finset`.
* Rust `Result<T>` is `Except Error T`; a `panic!`/`unwrap` failure is
  modelled by an outer `Option` whose `none` means "panics".
* `ParsedValue`, `InterpolateKey` and the error type live in files of the
  repository that are not part of the excerpt; they are modelled from the
  spec where indicated.
-/

namespace LoadLocales

/-- Modelled from the spec: a `Key` is an interned string identifier; two keys
with equal names are the same logical identity, so a key is its name. -/
abbrev Key := String

/-- Modelled from the spec: the plural-category taxonomy carried by a `Count`
interpolate key (the spec names cardinal and ordinal as the two taxonomies;
only decidable equality of taxonomies matters to the unifier). -/
inductive PluralType where
  | cardinal
  | ordinal
  deriving DecidableEq

/-- Modelled from the spec: a tagged interpolation reference extracted from a
`ParsedValue` — one of Variable(name), Component(name), Count(taxonomy). -/
inductive InterpolateKey where
  | Variable (name : Key)
  | Component (name : Key)
  | Count (plural_type : PluralType)
  deriving DecidableEq

mutual
/-- Modelled from the spec: a parsed translation value — a recursive tree of
literal text, named variable placeholders, named component markup wrapping a
nested value, plural/range selectors (tagged with their taxonomy) over
branches, and concatenation of parts. -/
inductive ParsedValue where
  | lit (text : String)
  | var (name : Key)
  | comp (name : Key) (inner : ParsedValue)
  | plural (plural_type : PluralType) (branches : ParsedValueList)
  | seq (parts : ParsedValueList)

/-- A list of `ParsedValue`s (explicit mutual inductive so that recursion over
the tree is structural). -/
inductive ParsedValueList where
  | nil
  | cons (head : ParsedValue) (tail : ParsedValueList)
end

mutual
/-- Modelled from the spec: the set of `InterpolateKey`s a value references —
every variable placeholder, component reference and plural selector (with its
taxonomy) reachable in the tree. -/
def ParsedValue.referencedKeys : ParsedValue → Finset InterpolateKey
  | .lit _ => ∅
  | .var name => {InterpolateKey.Variable name}
  | .comp name inner => insert (InterpolateKey.Component name) inner.referencedKeys
  | .plural plural_type branches =>
      insert (InterpolateKey.Count plural_type) branches.referencedKeysList
  | .seq parts => parts.referencedKeysList

/-- Union of the referenced keys of every value in the list. -/
def ParsedValueList.referencedKeysList : ParsedValueList → Finset InterpolateKey
  | .nil => ∅
  | .cons head tail => head.referencedKeys ∪ tail.referencedKeysList
end

/-- Modelled from the spec: `ParsedValue::get_keys` returns `None` exactly when
the value references no interpolation key (such a value classifies as plain
`String`), and otherwise `Some` of the referenced-key set. -/
def ParsedValue.get_keys (v : ParsedValue) : Option (Finset InterpolateKey) :=
  if v.referencedKeys = ∅ then none else some v.referencedKeys

/-- Merge of two optional key sets: absent means "no keys yet"; two present
sets merge by union. -/
def optMerge :
    Option (Finset InterpolateKey) → Option (Finset InterpolateKey) →
    Option (Finset InterpolateKey)
  | none, b => b
  | some a, none => some a
  | some a, some b => some (a ∪ b)

/-- Modelled from the spec: `ParsedValue::get_keys_inner` accumulates the
value's referenced interpolation keys into a mutable optional set — the merge
policy is the union of everything seen (spec §4.4 step 3). -/
def ParsedValue.get_keys_inner (v : ParsedValue)
    (acc : Option (Finset InterpolateKey)) : Option (Finset InterpolateKey) :=
  optMerge acc v.get_keys

/-- Modelled from the spec (§7): the terminal error kinds of the loader and
unifier.  Causes (`std::io::Error`, `serde_json::Error`) and the offending
fragment carry no information the claims need beyond their presence, so they
are reduced to the path / fragment already present in the variant. -/
inductive Error where
  | LocaleFileNotFound (path : String)
  | LocaleFileDeser (path : String)
  | ParseError (fragment : String)
  | MissingKeysInLocale (ns : Option String) (keys : Finset String) (locale : String)
  | PluralTypeMissmatch (locale_key : String) (ns : Option String)
  deriving DecidableEq

instance {ε α : Type} [DecidableEq ε] [DecidableEq α] : DecidableEq (Except ε α)
  | .error x, .error y => decidable_of_iff (x = y) (by simp)
  | .error _, .ok _ => isFalse (by simp)
  | .ok _, .error _ => isFalse (by simp)
  | .ok x, .ok y => decidable_of_iff (x = y) (by simp)

/-- `Locale`: a locale name plus the mapping from translation key to parsed
value (`HashMap` modelled as an association list, see file header). -/
structure Locale where
  name : Key
  keys : List (Key × ParsedValue)
  deriving Inhabited

/-- `Locale::get_keys`: the set of translation keys of the locale. -/
def Locale.get_keys (l : Locale) : Finset Key :=
  (l.keys.map Prod.fst).toFinset

/-- `HashMap::get` on the modelled association list (first binding wins; under
the hash-map `Nodup` invariant there is at most one binding per key). -/
def Locale.lookup (l : Locale) (k : Key) : Option ParsedValue :=
  (l.keys.find? (fun p => p.1 == k)).map Prod.snd

/-- `LocaleValue`: the inferred output type of one translation key. -/
inductive LocaleValue where
  | String
  | Builder (keys : Finset InterpolateKey)
  deriving DecidableEq

/-- `LocaleValue::new`: `None` ⇒ plain string, `Some keys` ⇒ builder. -/
def LocaleValue.new : Option (Finset InterpolateKey) → LocaleValue
  | some keys => LocaleValue.Builder keys
  | none => LocaleValue.String

/-- `BuildersKeysInner`: mapping from translation key to its `LocaleValue`. -/
abbrev BuildersKeysInner := List (Key × LocaleValue)

/-- `Locale::key_missmatch` (locale.rs:98-125): build the `MissingKeysInLocale`
error for two locales with different key sets.  The `keys` field is
`keys1 \ keys2` blamed on `locale2` when that difference is non-empty, and
otherwise `keys2 \ keys1` blamed on `locale1`. -/
def Locale.key_missmatch (locale1 : Locale) (keys1 : Finset Key)
    (locale2 : Locale) (keys2 : Finset Key) (ns : Option String) : Error :=
  if keys1 \ keys2 = ∅ then
    Error.MissingKeysInLocale ns (keys2 \ keys1) locale1.name
  else
    Error.MissingKeysInLocale ns (keys1 \ keys2) locale2.name

/-- The in-progress per-key optional `InterpolateKey` sets
(`mapped_keys` in locale.rs). -/
abbrev MappedKeys := List (Key × Option (Finset InterpolateKey))

/-- One iteration of the merge loop body (locale.rs:154-158): for every entry
of `mapped_keys`, if the locale has a value for that key, accumulate that
value's interpolation keys into the entry. -/
def mergeLocale (acc : MappedKeys) (locale : Locale) : MappedKeys :=
  acc.map (fun p =>
    match locale.lookup p.1 with
    | some value => (p.1, value.get_keys_inner p.2)
    | none => p)

/-- The loop over the non-reference locales (locale.rs:142-159): each locale's
key set is compared with the reference key set (the Rust code tests
`first_locale_keys != keys` and errors; here the equal case continues), and on
equality the locale's values are merged into `mapped_keys`. -/
def checkLoop (first : Locale) (first_keys : Finset Key) (ns : Option String) :
    List Locale → MappedKeys → Except Error MappedKeys
  | [], acc => Except.ok acc
  | locale :: rest, acc =>
    if first_keys = locale.get_keys then
      checkLoop first first_keys ns rest (mergeLocale acc locale)
    else
      Except.error (Locale.key_missmatch first first_keys locale locale.get_keys ns)

/-- The set of taxonomies of the `Count` entries of a key set. -/
def countTypes (keys : Finset InterpolateKey) : Finset PluralType :=
  keys.biUnion (fun k =>
    match k with
    | InterpolateKey.Count plural_type => {plural_type}
    | _ => ∅)

/-- The `retain` of locale.rs:182-184: drop every `Variable` entry whose name
is the reserved implicit-count alias `"var_count"`. -/
def retainNonVarCount (keys : Finset InterpolateKey) : Finset InterpolateKey :=
  keys.filter (fun k => k ≠ InterpolateKey.Variable "var_count")

/-- The per-entry body of the plural loop (locale.rs:166-185).  The Rust code
picks an arbitrary `Count` entry of the `HashSet` and errors if any other
`Count` entry carries a different taxonomy; that test is order-independent and
holds exactly when the set carries at least two distinct taxonomies, which is
how it is rendered here.  With no `Count` entry the set is untouched; with a
consistent `Count` the reserved `"var_count"` variable entries are dropped. -/
def processEntry (ns : Option String) (locale_key : Key)
    (keys : Finset InterpolateKey) : Except Error (Finset InterpolateKey) :=
  if countTypes keys = ∅ then
    Except.ok keys
  else if 1 < (countTypes keys).card then
    Except.error (Error.PluralTypeMissmatch locale_key ns)
  else
    Except.ok (retainNonVarCount keys)

/-- The plural-consistency pass over `mapped_keys` (locale.rs:161-186):
entries with no key set are skipped; each present set is checked and rewritten
by `processEntry`, aborting at the first taxonomy mismatch. -/
def pluralPhase (ns : Option String) : MappedKeys → Except Error MappedKeys
  | [] => Except.ok []
  | (k, none) :: rest => do
      let rest' ← pluralPhase ns rest
      Except.ok ((k, none) :: rest')
  | (k, some s) :: rest => do
      let s' ← processEntry ns k s
      let rest' ← pluralPhase ns rest
      Except.ok ((k, some s') :: rest')

/-- `Locale::check_locales_inner` (locale.rs:127-194).  The outer `Option` is
`none` exactly when the Rust code panics (the `unwrap` of the first locale on
an empty input); otherwise it is `some` of the `Result`. -/
def Locale.check_locales_inner :
    List Locale → Option String → Option (Except Error BuildersKeysInner)
  | [], _ => none
  | first :: rest, ns =>
    some (do
      let mapped : MappedKeys := first.keys.map (fun p => (p.1, p.2.get_keys))
      let merged ← checkLoop first first.get_keys ns rest mapped
      let processed ← pluralPhase ns merged
      Except.ok (processed.map (fun p => (p.1, LocaleValue.new p.2))))

/-- `Namespace`: a namespace key plus its per-locale `Locale`s. -/
structure Namespace where
  key : Key
  locales : List Locale

/-- `LocalesOrNamespaces` (locale.rs:21-24). -/
inductive LocalesOrNamespaces where
  | NameSpaces (namespaces : List Namespace)
  | Locales (locales : List Locale)

/-- `BuildersKeys` (locale.rs:28-37). -/
inductive BuildersKeys where
  | NameSpaces (namespaces : List Namespace)
      (keys : List (Key × BuildersKeysInner))
  | Locales (locales : List Locale) (keys : BuildersKeysInner)

/-- The loop of `Locale::check_locales` over namespaces (locale.rs:199-204):
run the unifier on each namespace in order, stopping at the first error
(`none` propagates a panic of the unifier). -/
def checkNamespaces :
    List Namespace → Option (Except Error (List (Key × BuildersKeysInner)))
  | [] => some (Except.ok [])
  | n :: rest =>
    match Locale.check_locales_inner n.locales (some n.key) with
    | none => none
    | some (Except.error e) => some (Except.error e)
    | some (Except.ok k) =>
      match checkNamespaces rest with
      | none => none
      | some (Except.error e) => some (Except.error e)
      | some (Except.ok ks) => some (Except.ok ((n.key, k) :: ks))

/-- `Locale::check_locales` (locale.rs:196-212). -/
def Locale.check_locales : LocalesOrNamespaces → Option (Except Error BuildersKeys)
  | LocalesOrNamespaces.NameSpaces namespaces =>
    (checkNamespaces namespaces).map (Except.map (BuildersKeys.NameSpaces namespaces))
  | LocalesOrNamespaces.Locales ls =>
    (Locale.check_locales_inner ls none).map (Except.map (BuildersKeys.Locales ls))

/-- Modelled from the spec (§4.3, external collaborator): what the file system
and the serde deserializer yield for a path — the file is absent/unopenable,
its content fails to deserialize (bad top-level map or a value that fails to
parse), or it deserializes to a top-level key→value map. -/
inductive FileContent where
  | missing
  | malformed
  | object (entries : List (Key × ParsedValue))

/-- `Locale::new` (locale.rs:81-92) over the modelled file system: an absent
file is `LocaleFileNotFound` with the given path, a deserialization failure is
`LocaleFileDeser` with the given path, and success builds the locale from
exactly the top-level entries of the file. -/
def Locale.new (fs : String → FileContent) (path : String) (locale : Key) :
    Except Error Locale :=
  match fs path with
  | FileContent.missing => Except.error (Error.LocaleFileNotFound path)
  | FileContent.malformed => Except.error (Error.LocaleFileDeser path)
  | FileContent.object entries => Except.ok { name := locale, keys := entries }

/-- The path of a namespace-less locale file (locale.rs:67). -/
def flatLocalePath (locales_dir locale : String) : String :=
  locales_dir ++ "/" ++ locale ++ ".json"

/-- The path of a namespaced locale file (locale.rs:43). -/
def nsLocalePath (locales_dir locale ns_key : String) : String :=
  locales_dir ++ "/" ++ locale ++ "/" ++ ns_key ++ ".json"

/-- The locale-loading loops of `Namespace::new` and
`LocalesOrNamespaces::new`: load one locale per configured locale key, in
order, stopping at the first error. -/
def loadLocales (fs : String → FileContent) (mkPath : String → String) :
    List Key → Except Error (List Locale)
  | [] => Except.ok []
  | locale :: rest => do
      let l ← Locale.new fs (mkPath locale) locale
      let ls ← loadLocales fs mkPath rest
      Except.ok (l :: ls)

/-- `Namespace::new` (locale.rs:40-47). -/
def Namespace.new (fs : String → FileContent) (locales_dir : String)
    (key : Key) (locale_keys : List Key) : Except Error Namespace :=
  (loadLocales fs (fun locale => nsLocalePath locales_dir locale key)
      locale_keys).map (fun locales => { key := key, locales := locales })

/-- `ConfigFile` (the configuration input, consumed not parsed here). -/
structure ConfigFile where
  locales : List Key
  name_spaces : Option (List Key)
  locales_dir : String

/-- The namespace-building loop of `LocalesOrNamespaces::new`
(locale.rs:55-62). -/
def buildNamespaces (fs : String → FileContent) (locales_dir : String)
    (locale_keys : List Key) : List Key → Except Error (List Namespace)
  | [] => Except.ok []
  | nk :: rest => do
      let n ← Namespace.new fs locales_dir nk locale_keys
      let ns ← buildNamespaces fs locales_dir locale_keys rest
      Except.ok (n :: ns)

/-- `LocalesOrNamespaces::new` (locale.rs:50-73). -/
def LocalesOrNamespaces.new (fs : String → FileContent) (cfg : ConfigFile) :
    Except Error LocalesOrNamespaces :=
  match cfg.name_spaces with
  | some namespace_keys =>
    (buildNamespaces fs cfg.locales_dir cfg.locales namespace_keys).map
      LocalesOrNamespaces.NameSpaces
  | none =>
    (loadLocales fs (flatLocalePath cfg.locales_dir) cfg.locales).map
      LocalesOrNamespaces.Locales

/-! ## Derived, specification-side notions used to state the claims -/

/-- The optional interpolation-key set a locale contributes for key `k`. -/
def keysAt (l : Locale) (k : Key) : Option (Finset InterpolateKey) :=
  match l.lookup k with
  | some v => v.get_keys
  | none => none

/-- The merged optional interpolation-key set of key `k` over a locale list:
the fold of `optMerge` of every locale's contribution, in list order. -/
def mergedFor (locales : List Locale) (k : Key) : Option (Finset InterpolateKey) :=
  locales.foldl (fun o l => optMerge o (keysAt l k)) none

/-- The interpolation keys referenced by locale `l`'s value for key `k`
(empty when `l` has no value for `k`). -/
def valueKeys (l : Locale) (k : Key) : Finset InterpolateKey :=
  match l.lookup k with
  | some v => v.referencedKeys
  | none => ∅

/-- Specification-side merge policy: the union over all locales of the
interpolation keys referenced by that locale's value for key `k`. -/
def unionFor (locales : List Locale) (k : Key) : Finset InterpolateKey :=
  locales.foldl (fun s l => s ∪ valueKeys l k) ∅

/-- The pure effect of the plural pass on one optional key set (what
`processEntry` does when it does not error). -/
def processedOpt (o : Option (Finset InterpolateKey)) :
    Option (Finset InterpolateKey) :=
  o.map (fun s => if countTypes s = ∅ then s else retainNonVarCount s)

/-- The `LocaleValue` a key ends up with after a successful unification. -/
def finalValue (locales : List Locale) (k : Key) : LocaleValue :=
  LocaleValue.new (processedOpt (mergedFor locales k))

/-- Lookup in a modelled `HashMap` (association list). -/
def assocLookup {α : Type} (m : List (Key × α)) (k : Key) : Option α :=
  (m.find? (fun p => p.1 == k)).map Prod.snd

/-- An optional key set is well formed when a present set is non-empty (the
code never materializes an empty `HashSet`). -/
def GoodOpt (o : Option (Finset InterpolateKey)) : Prop :=
  ∀ s, o = some s → s.Nonempty

/-! ## Lemmas about the optional-set merge -/

theorem optMerge_none_right (a : Option (Finset InterpolateKey)) :
    optMerge a none = a := by
  cases a <;> rfl

theorem optMerge_none_left (b : Option (Finset InterpolateKey)) :
    optMerge none b = b := rfl

theorem optMerge_getD (a b : Option (Finset InterpolateKey)) :
    (optMerge a b).getD ∅ = a.getD ∅ ∪ b.getD ∅ := by
  cases a <;> cases b <;> simp [optMerge]

theorem optMerge_comm (a b : Option (Finset InterpolateKey)) :
    optMerge a b = optMerge b a := by
  cases a <;> cases b <;> simp [optMerge, Finset.union_comm]

theorem optMerge_assoc (a b c : Option (Finset InterpolateKey)) :
    optMerge (optMerge a b) c = optMerge a (optMerge b c) := by
  cases a <;> cases b <;> cases c <;> simp [optMerge, Finset.union_assoc]

theorem goodOpt_none : GoodOpt none := by
  intro s h
  cases h

theorem ParsedValue.get_keys_getD (v : ParsedValue) :
    (v.get_keys).getD ∅ = v.referencedKeys := by
  unfold ParsedValue.get_keys
  split
  · next h => simp [h]
  · simp

theorem goodOpt_get_keys (v : ParsedValue) : GoodOpt v.get_keys := by
  intro s h
  unfold ParsedValue.get_keys at h
  split at h
  · cases h
  · next hne =>
    cases h
    exact Finset.nonempty_iff_ne_empty.mpr hne

theorem goodOpt_keysAt (l : Locale) (k : Key) : GoodOpt (keysAt l k) := by
  unfold keysAt
  split
  · exact goodOpt_get_keys _
  · exact goodOpt_none

theorem goodOpt_optMerge {a b : Option (Finset InterpolateKey)}
    (ha : GoodOpt a) (hb : GoodOpt b) : GoodOpt (optMerge a b) := by
  cases a with
  | none => simpa [optMerge] using hb
  | some sa =>
    cases b with
    | none =>
      simpa [optMerge] using ha
    | some sb =>
      intro s h
      simp only [optMerge, Option.some.injEq] at h
      subst h
      exact (ha sa rfl).mono Finset.subset_union_left

theorem keysAt_getD (l : Locale) (k : Key) :
    (keysAt l k).getD ∅ = valueKeys l k := by
  unfold keysAt valueKeys
  split
  · next v _ => exact v.get_keys_getD
  · rfl

/-! ## Lemmas about the merge loop -/

theorem mergeLocale_eq_map (acc : MappedKeys) (locale : Locale) :
    mergeLocale acc locale =
      acc.map (fun p => (p.1, optMerge p.2 (keysAt locale p.1))) := by
  unfold mergeLocale
  apply List.map_congr_left
  intro p _
  unfold keysAt
  cases h : locale.lookup p.1 with
  | none => simp [h, optMerge_none_right]
  | some v => simp [h, ParsedValue.get_keys_inner]

theorem foldl_mergeLocale (rest : List Locale) (acc : MappedKeys) :
    rest.foldl mergeLocale acc =
      acc.map (fun p =>
        (p.1, rest.foldl (fun o l => optMerge o (keysAt l p.1)) p.2)) := by
  induction rest generalizing acc with
  | nil => simp
  | cons l rest ih =>
    simp only [List.foldl_cons]
    rw [ih (mergeLocale acc l), mergeLocale_eq_map, List.map_map]
    rfl

theorem checkLoop_ok (first : Locale) (first_keys : Finset Key)
    (ns : Option String) (rest : List Locale) (acc : MappedKeys)
    (h : ∀ l ∈ rest, l.get_keys = first_keys) :
    checkLoop first first_keys ns rest acc =
      Except.ok (rest.foldl mergeLocale acc) := by
  induction rest generalizing acc with
  | nil => rfl
  | cons l rest ih =>
    have hl : l.get_keys = first_keys := h l (List.mem_cons_self l rest)
    simp only [checkLoop, hl, if_pos rfl, List.foldl_cons]
    exact ih _ (fun l' hl' => h l' (List.mem_cons_of_mem _ hl'))

theorem checkLoop_error (first : Locale) (first_keys : Finset Key)
    (ns : Option String) (front : List Locale) (bad : Locale)
    (back : List Locale) (acc : MappedKeys)
    (hfront : ∀ l ∈ front, l.get_keys = first_keys)
    (hbad : bad.get_keys ≠ first_keys) :
    checkLoop first first_keys ns (front ++ bad :: back) acc =
      Except.error
        (Locale.key_missmatch first first_keys bad bad.get_keys ns) := by
  induction front generalizing acc with
  | nil =>
    simp only [List.nil_append, checkLoop]
    rw [if_neg (fun h => hbad h.symm)]
  | cons l front ih =>
    have hl : l.get_keys = first_keys := hfront l (List.mem_cons_self l front)
    simp only [List.cons_append, checkLoop, hl, if_pos rfl]
    exact ih _ (fun l' hl' => hfront l' (List.mem_cons_of_mem _ hl'))

/-! ## Lemmas about the merged per-key sets -/

theorem foldl_optMerge_getD (locales : List Locale) (k : Key)
    (o : Option (Finset InterpolateKey)) :
    (locales.foldl (fun o l => optMerge o (keysAt l k)) o).getD ∅ =
      locales.foldl (fun s l => s ∪ valueKeys l k) (o.getD ∅) := by
  induction locales generalizing o with
  | nil => rfl
  | cons l locales ih =>
    simp only [List.foldl_cons]
    rw [ih, optMerge_getD, keysAt_getD]

theorem mergedFor_getD (locales : List Locale) (k : Key) :
    (mergedFor locales k).getD ∅ = unionFor locales k :=
  foldl_optMerge_getD locales k none

theorem goodOpt_foldl_optMerge (locales : List Locale) (k : Key)
    (o : Option (Finset InterpolateKey)) (ho : GoodOpt o) :
    GoodOpt (locales.foldl (fun o l => optMerge o (keysAt l k)) o) := by
  induction locales generalizing o with
  | nil => exact ho
  | cons l locales ih =>
    exact ih _ (goodOpt_optMerge ho (goodOpt_keysAt l k))

theorem goodOpt_mergedFor (locales : List Locale) (k : Key) :
    GoodOpt (mergedFor locales k) :=
  goodOpt_foldl_optMerge locales k none goodOpt_none

theorem foldl_optMerge_perm {locales locales₂ : List Locale}
    (h : locales.Perm locales₂) (k : Key) :
    ∀ o, locales.foldl (fun o l => optMerge o (keysAt l k)) o =
      locales₂.foldl (fun o l => optMerge o (keysAt l k)) o := by
  induction h with
  | nil => intro o; rfl
  | cons x _ ih =>
    intro o
    simp only [List.foldl_cons]
    exact ih _
  | swap x y l =>
    intro o
    simp only [List.foldl_cons]
    rw [optMerge_assoc, optMerge_comm (keysAt y k), ← optMerge_assoc]
  | trans _ _ ih₁ ih₂ =>
    intro o
    rw [ih₁ o, ih₂ o]

theorem mergedFor_perm {locales locales₂ : List Locale}
    (h : locales.Perm locales₂) (k : Key) :
    mergedFor locales k = mergedFor locales₂ k :=
  foldl_optMerge_perm h k none

theorem mergedFor_cons (first : Locale) (rest : List Locale) (k : Key) :
    mergedFor (first :: rest) k =
      rest.foldl (fun o l => optMerge o (keysAt l k)) (keysAt first k) := by
  simp [mergedFor, optMerge_none_left]

/-! ## Lemmas about the plural pass -/

theorem mem_countTypes {keys : Finset InterpolateKey} {t : PluralType} :
    t ∈ countTypes keys ↔ InterpolateKey.Count t ∈ keys := by
  unfold countTypes
  simp only [Finset.mem_biUnion]
  constructor
  · rintro ⟨k, hk, ht⟩
    cases k with
    | Variable name => simp at ht
    | Component name => simp at ht
    | Count pt =>
      simp only [Finset.mem_singleton] at ht
      subst ht
      exact hk
  · intro h
    exact ⟨InterpolateKey.Count t, h, Finset.mem_singleton_self t⟩

theorem retainNonVarCount_nonempty {keys : Finset InterpolateKey}
    (h : countTypes keys ≠ ∅) : (retainNonVarCount keys).Nonempty := by
  obtain ⟨t, ht⟩ := Finset.nonempty_iff_ne_empty.mpr h
  refine ⟨InterpolateKey.Count t, ?_⟩
  unfold retainNonVarCount
  rw [Finset.mem_filter]
  exact ⟨mem_countTypes.mp ht, by simp⟩

theorem processEntry_ok (ns : Option String) (k : Key)
    (s : Finset InterpolateKey) (h : (countTypes s).card ≤ 1) :
    processEntry ns k s =
      Except.ok (if countTypes s = ∅ then s else retainNonVarCount s) := by
  unfold processEntry
  split
  · rfl
  · rw [if_neg (by omega : ¬ 1 < (countTypes s).card)]

theorem processEntry_error (ns : Option String) (k : Key)
    (s : Finset InterpolateKey) (h : 1 < (countTypes s).card) :
    processEntry ns k s = Except.error (Error.PluralTypeMissmatch k ns) := by
  unfold processEntry
  have hne : countTypes s ≠ ∅ := by
    intro he
    rw [he] at h
    simp at h
  rw [if_neg hne, if_pos h]

theorem pluralPhase_ok (ns : Option String) (m : MappedKeys)
    (h : ∀ p ∈ m, (countTypes (p.2.getD ∅)).card ≤ 1) :
    pluralPhase ns m = Except.ok (m.map (fun p => (p.1, processedOpt p.2))) := by
  induction m with
  | nil => rfl
  | cons p m ih =>
    obtain ⟨k, o⟩ := p
    have hrest : ∀ p ∈ m, (countTypes (p.2.getD ∅)).card ≤ 1 :=
      fun p hp => h p (List.mem_cons_of_mem _ hp)
    cases o with
    | none =>
      simp only [pluralPhase, ih hrest, List.map_cons]
      rfl
    | some s =>
      have hs : (countTypes s).card ≤ 1 := by
        simpa using h (k, some s) (List.mem_cons_self _ _)
      simp only [pluralPhase, processEntry_ok ns k s hs, ih hrest, List.map_cons]
      rfl

theorem pluralPhase_error (ns : Option String) (front : List (Key × Option (Finset InterpolateKey)))
    (k : Key) (s : Finset InterpolateKey) (back : MappedKeys)
    (hfront : ∀ p ∈ front, (countTypes (p.2.getD ∅)).card ≤ 1)
    (hs : 1 < (countTypes s).card) :
    pluralPhase ns (front ++ (k, some s) :: back) =
      Except.error (Error.PluralTypeMissmatch k ns) := by
  induction front with
  | nil =>
    simp only [List.nil_append, pluralPhase, processEntry_error ns k s hs]
    rfl
  | cons p front ih =>
    have hrest : ∀ q ∈ front, (countTypes (q.2.getD ∅)).card ≤ 1 :=
      fun q hq => hfront q (List.mem_cons_of_mem _ hq)
    obtain ⟨k', o⟩ := p
    cases o with
    | none =>
      simp only [List.cons_append, pluralPhase, List.append_eq]
      rw [ih hrest]
      rfl
    | some s' =>
      have hs' : (countTypes s').card ≤ 1 := by
        simpa using hfront (k', some s') (List.mem_cons_self _ _)
      simp only [List.cons_append, pluralPhase, List.append_eq,
        processEntry_ok ns k' s' hs']
      rw [ih hrest]
      rfl

/-! ## Lemmas about association-list lookup -/

theorem assocLookup_map_fn {β γ : Type} (keysL : List (Key × β)) (f : Key → γ)
    (k : Key) :
    assocLookup (keysL.map (fun p => (p.1, f p.1))) k =
      if k ∈ keysL.map Prod.fst then some (f k) else none := by
  induction keysL with
  | nil => simp [assocLookup]
  | cons p keysL ih =>
    obtain ⟨k₁, v₁⟩ := p
    by_cases h : k₁ = k
    · subst h
      simp only [List.map_cons, List.mem_cons]
      unfold assocLookup
      rw [List.find?_cons_of_pos _ (by simp)]
      simp
    · simp only [List.map_cons, List.mem_cons]
      unfold assocLookup
      rw [List.find?_cons_of_neg _ (by simpa using h)]
      rw [assocLookup] at ih
      rw [ih]
      have hiff : (k = k₁ ∨ k ∈ keysL.map Prod.fst) ↔ k ∈ keysL.map Prod.fst :=
        ⟨fun hc => hc.resolve_left (fun he => h he.symm), Or.inr⟩
      rw [if_congr hiff rfl rfl]

theorem mem_get_keys_iff (l : Locale) (k : Key) :
    k ∈ l.get_keys ↔ k ∈ l.keys.map Prod.fst := by
  unfold Locale.get_keys
  exact List.mem_toFinset

/-- Under the hash-map invariant, looking a key up in the locale's map finds
the (unique) binding listed for it. -/
theorem Locale.lookup_eq_some {l : Locale} {k : Key} {v : ParsedValue}
    (hnd : (l.keys.map Prod.fst).Nodup) (hmem : (k, v) ∈ l.keys) :
    l.lookup k = some v := by
  unfold Locale.lookup
  obtain ⟨name, keys⟩ := l
  simp only at hnd hmem ⊢
  induction keys with
  | nil => cases hmem
  | cons p keys ih =>
    simp only [List.map_cons, List.nodup_cons] at hnd
    rcases List.mem_cons.mp hmem with h | h
    · subst h
      simp [List.find?_cons_of_pos]
    · have hne : p.1 ≠ k := by
        intro he
        exact hnd.1 (he ▸ (List.mem_map.mpr ⟨(k, v), h, rfl⟩))
      rw [List.find?_cons_of_neg _ (by simpa using hne)]
      exact ih hnd.2 h

/-- Splitting a list at the first element satisfying a decidable property. -/
theorem exists_first_split {α : Type} (P : α → Prop) [DecidablePred P]
    (l : List α) (h : ∃ x ∈ l, P x) :
    ∃ front x back, l = front ++ x :: back ∧ P x ∧ ∀ y ∈ front, ¬ P y := by
  induction l with
  | nil => simp at h
  | cons a l ih =>
    by_cases ha : P a
    · exact ⟨[], a, l, rfl, ha, by simp⟩
    · have hl : ∃ x ∈ l, P x := by
        obtain ⟨x, hx, hPx⟩ := h
        rcases List.mem_cons.mp hx with he | hm
        · exact absurd (he ▸ hPx) ha
        · exact ⟨x, hm, hPx⟩
      obtain ⟨front, x, back, heq, hPx, hfront⟩ := ih hl
      refine ⟨a :: front, x, back, by rw [heq, List.cons_append], hPx, ?_⟩
      intro y hy
      rcases List.mem_cons.mp hy with he | hm
      · exact he ▸ ha
      · exact hfront y hm

/-! ## Characterization of `check_locales_inner` -/

theorem exceptOkBind {ε α β : Type} (x : α) (f : α → Except ε β) :
    (Except.ok x : Except ε α) >>= f = f x := rfl

theorem exceptErrorBind {ε α β : Type} (e : ε) (f : α → Except ε β) :
    (Except.error e : Except ε α) >>= f = Except.error e := rfl

/-- On a group whose key sets all agree, the merge loop succeeds and the
per-key state it produces is exactly `mergedFor` of the whole group. -/
theorem checkLoop_char (first : Locale) (rest : List Locale) (ns : Option String)
    (hnd : (first.keys.map Prod.fst).Nodup)
    (hset : ∀ l ∈ rest, l.get_keys = first.get_keys) :
    checkLoop first first.get_keys ns rest
        (first.keys.map (fun p => (p.1, p.2.get_keys))) =
      Except.ok (first.keys.map (fun p => (p.1, mergedFor (first :: rest) p.1))) := by
  rw [checkLoop_ok first first.get_keys ns rest _ hset, foldl_mergeLocale,
    List.map_map]
  congr 1
  apply List.map_congr_left
  intro p hp
  simp only [Function.comp_apply]
  rw [mergedFor_cons]
  have : keysAt first p.1 = p.2.get_keys := by
    unfold keysAt
    rw [Locale.lookup_eq_some hnd hp]
  rw [this]

/-- Master characterization: with agreeing key sets and no plural-taxonomy
conflict among the merged sets, `check_locales_inner` succeeds and maps every
reference key to `finalValue`. -/
theorem check_locales_inner_ok_char (first : Locale) (rest : List Locale)
    (ns : Option String)
    (hnd : (first.keys.map Prod.fst).Nodup)
    (hset : ∀ l ∈ rest, l.get_keys = first.get_keys)
    (hmm : ∀ k ∈ first.get_keys,
      (countTypes ((mergedFor (first :: rest) k).getD ∅)).card ≤ 1) :
    Locale.check_locales_inner (first :: rest) ns =
      some (Except.ok
        (first.keys.map (fun p => (p.1, finalValue (first :: rest) p.1)))) := by
  simp only [Locale.check_locales_inner]
  rw [checkLoop_char first rest ns hnd hset]
  have hphase : pluralPhase ns
      (first.keys.map (fun p => (p.1, mergedFor (first :: rest) p.1))) =
      Except.ok ((first.keys.map (fun p => (p.1, mergedFor (first :: rest) p.1))).map
        (fun p => (p.1, processedOpt p.2))) := by
    apply pluralPhase_ok
    intro p hp
    obtain ⟨q, hq, hpq⟩ := List.mem_map.mp hp
    have hk : q.1 ∈ first.get_keys :=
      (mem_get_keys_iff first q.1).mpr (List.mem_map.mpr ⟨q, hq, rfl⟩)
    have := hmm q.1 hk
    rw [← hpq]
    simpa using this
  simp only [exceptOkBind]
  rw [hphase]
  simp only [exceptOkBind, List.map_map]
  rfl

/-- Error characterization: a key-set mismatch at the first offending locale
surfaces as exactly the `key_missmatch` error. -/
theorem check_locales_inner_missmatch (first : Locale) (front : List Locale)
    (bad : Locale) (back : List Locale) (ns : Option String)
    (hfront : ∀ l ∈ front, l.get_keys = first.get_keys)
    (hbad : bad.get_keys ≠ first.get_keys) :
    Locale.check_locales_inner (first :: (front ++ bad :: back)) ns =
      some (Except.error
        (Locale.key_missmatch first first.get_keys bad bad.get_keys ns)) := by
  simp only [Locale.check_locales_inner]
  rw [checkLoop_error first first.get_keys ns front bad back _ hfront hbad]
  rfl

theorem countTypes_empty : countTypes (∅ : Finset InterpolateKey) = ∅ := by
  simp [countTypes]

/-! ## Claim theorems -/

/-- C9: under the precondition that the input collection of locales is
non-empty, `check_locales_inner` is total (the extraction of the first locale
never panics, modelled by the result being `some`); on the empty list it
panics via `unwrap` (modelled by the result being `none`) instead of returning
an error value. -/
theorem check_locales_inner_empty_panics :
    (∀ ns, Locale.check_locales_inner [] ns = none)
    ∧ ∀ (locales : List Locale) (ns : Option String), locales ≠ [] →
        (Locale.check_locales_inner locales ns).isSome := by
  constructor
  · intro ns
    rfl
  · intro locales ns h
    cases locales with
    | nil => exact absurd rfl h
    | cons first rest => rfl

theorem check_locales_inner_empty_panics_witness :
    Locale.check_locales_inner [] none = none
    ∧ (Locale.check_locales_inner [⟨"en", []⟩] none).isSome :=
  ⟨check_locales_inner_empty_panics.1 none,
    check_locales_inner_empty_panics.2 [⟨"en", []⟩] none
      (List.cons_ne_nil _ _)⟩

/-- C6: `Locale::new(path, locale)` fails with `LocaleFileNotFound` carrying
the given path exactly when opening the file fails, fails with
`LocaleFileDeser` carrying the given path exactly when deserialization (of the
top-level map or of any value) fails, and on success returns a `Locale` whose
key set is exactly the top-level keys present in the source file — no
defaulting, no inheritance from other locales. -/
theorem locale_new_contract (fs : String → FileContent) (path : String)
    (locale : Key) :
    (Locale.new fs path locale = Except.error (Error.LocaleFileNotFound path)
      ↔ fs path = FileContent.missing)
    ∧ (Locale.new fs path locale = Except.error (Error.LocaleFileDeser path)
      ↔ fs path = FileContent.malformed)
    ∧ ∀ entries, fs path = FileContent.object entries →
        Locale.new fs path locale = Except.ok ⟨locale, entries⟩
        ∧ (Locale.mk locale entries).name = locale
        ∧ (Locale.mk locale entries).get_keys = (entries.map Prod.fst).toFinset := by
  refine ⟨?_, ?_, ?_⟩
  · cases h : fs path <;> simp [Locale.new, h]
  · cases h : fs path <;> simp [Locale.new, h]
  · intro entries he
    exact ⟨by simp [Locale.new, he], rfl, rfl⟩

theorem locale_new_contract_witness :
    Locale.new (fun p => if p = "dir/en.json"
        then FileContent.object [("a", ParsedValue.lit "x")]
        else FileContent.missing) "dir/en.json" "en" =
      Except.ok ⟨"en", [("a", ParsedValue.lit "x")]⟩
    ∧ (Locale.mk "en" [("a", ParsedValue.lit "x")]).get_keys =
        ([("a", ParsedValue.lit "x")].map Prod.fst).toFinset
    ∧ (Locale.new (fun p => if p = "dir/en.json"
        then FileContent.object [("a", ParsedValue.lit "x")]
        else FileContent.missing) "dir/fr.json" "fr" =
          Except.error (Error.LocaleFileNotFound "dir/fr.json")
      ↔ (fun p => if p = "dir/en.json"
        then FileContent.object [("a", ParsedValue.lit "x")]
        else FileContent.missing) "dir/fr.json" = FileContent.missing) := by
  refine ⟨?_, ?_, ?_⟩
  · exact ((locale_new_contract
      (fun p => if p = "dir/en.json"
        then FileContent.object [("a", ParsedValue.lit "x")]
        else FileContent.missing) "dir/en.json" "en").2.2 _ rfl).1
  · exact ((locale_new_contract
      (fun p => if p = "dir/en.json"
        then FileContent.object [("a", ParsedValue.lit "x")]
        else FileContent.missing) "dir/en.json" "en").2.2 _ rfl).2.2
  · exact (locale_new_contract
      (fun p => if p = "dir/en.json"
        then FileContent.object [("a", ParsedValue.lit "x")]
        else FileContent.missing) "dir/fr.json" "fr").1

theorem exists_count_mem_retain {keys : Finset InterpolateKey}
    (h : countTypes keys ≠ ∅) :
    ∃ t, InterpolateKey.Count t ∈ retainNonVarCount keys := by
  obtain ⟨t, ht⟩ := Finset.nonempty_iff_ne_empty.mpr h
  refine ⟨t, ?_⟩
  rw [retainNonVarCount, Finset.mem_filter]
  exact ⟨mem_countTypes.mp ht, by simp⟩

theorem assocLookup_finalValue (first : Locale) (rest : List Locale) (k : Key)
    (v : ParsedValue) (hmem : (k, v) ∈ first.keys) :
    assocLookup (first.keys.map (fun p => (p.1, finalValue (first :: rest) p.1))) k
      = some (finalValue (first :: rest) k) := by
  have h1 := assocLookup_map_fn first.keys
    (fun k' => finalValue (first :: rest) k') k
  rw [if_pos (List.mem_map.mpr ⟨(k, v), hmem, rfl⟩)] at h1
  exact h1

theorem assocLookup_mergedFor (first : Locale) (rest : List Locale) (k : Key)
    (v : ParsedValue) (hmem : (k, v) ∈ first.keys) :
    assocLookup (first.keys.map (fun p => (p.1, mergedFor (first :: rest) p.1))) k
      = some (mergedFor (first :: rest) k) := by
  have h1 := assocLookup_map_fn first.keys
    (fun k' => mergedFor (first :: rest) k') k
  rw [if_pos (List.mem_map.mpr ⟨(k, v), hmem, rfl⟩)] at h1
  exact h1

/-- C1: for every non-empty list of locales that passes the key-set equality
check, the merge loop of `check_locales_inner` computes, for each translation
key of the reference (first) locale, a merged `InterpolateKey` set equal to
the union over all locales in the list of the `InterpolateKey`s referenced by
that locale's value for that key — the merge is the union of everything seen
in any locale, not an intersection. -/
theorem checkLoop_merges_union (first : Locale) (rest : List Locale)
    (ns : Option String) (k : Key) (v : ParsedValue)
    (hnd : (first.keys.map Prod.fst).Nodup)
    (hset : ∀ l ∈ rest, l.get_keys = first.get_keys)
    (hmem : (k, v) ∈ first.keys) :
    ∃ m, checkLoop first first.get_keys ns rest
        (first.keys.map (fun p => (p.1, p.2.get_keys))) = Except.ok m
      ∧ assocLookup m k = some (mergedFor (first :: rest) k)
      ∧ (mergedFor (first :: rest) k).getD ∅ = unionFor (first :: rest) k :=
  ⟨_, checkLoop_char first rest ns hnd hset,
    assocLookup_mergedFor first rest k v hmem, mergedFor_getD _ _⟩

theorem checkLoop_merges_union_witness :
    ∃ m, checkLoop ⟨"en", [("a", ParsedValue.var "name")]⟩
        (Locale.get_keys ⟨"en", [("a", ParsedValue.var "name")]⟩) none
        [⟨"fr", [("a", ParsedValue.comp "b" (ParsedValue.lit "x"))]⟩]
        ((Locale.mk "en" [("a", ParsedValue.var "name")]).keys.map
          (fun p => (p.1, p.2.get_keys))) = Except.ok m
      ∧ assocLookup m "a" =
          some (mergedFor [⟨"en", [("a", ParsedValue.var "name")]⟩,
            ⟨"fr", [("a", ParsedValue.comp "b" (ParsedValue.lit "x"))]⟩] "a")
      ∧ (mergedFor [⟨"en", [("a", ParsedValue.var "name")]⟩,
            ⟨"fr", [("a", ParsedValue.comp "b" (ParsedValue.lit "x"))]⟩] "a").getD ∅ =
          unionFor [⟨"en", [("a", ParsedValue.var "name")]⟩,
            ⟨"fr", [("a", ParsedValue.comp "b" (ParsedValue.lit "x"))]⟩] "a" :=
  checkLoop_merges_union ⟨"en", [("a", ParsedValue.var "name")]⟩
    [⟨"fr", [("a", ParsedValue.comp "b" (ParsedValue.lit "x"))]⟩] none "a"
    (ParsedValue.var "name") (by decide) (by decide) (List.mem_cons_self _ _)

/-- C3: on a locale group whose key sets agree, if the merged `InterpolateKey`
set of some translation key carries two `Count` entries of different plural
taxonomies, `check_locales_inner` fails with `PluralTypeMissmatch` carrying
such a key's name and the namespace label; if every key's `Count` entries
share one taxonomy, no `PluralTypeMissmatch` is raised (the unifier
succeeds). -/
theorem plural_type_mismatch_behavior (first : Locale) (rest : List Locale)
    (ns : Option String)
    (hnd : (first.keys.map Prod.fst).Nodup)
    (hset : ∀ l ∈ rest, l.get_keys = first.get_keys) :
    ((∃ k ∈ first.get_keys,
        1 < (countTypes ((mergedFor (first :: rest) k).getD ∅)).card) →
      ∃ k, 1 < (countTypes ((mergedFor (first :: rest) k).getD ∅)).card
        ∧ Locale.check_locales_inner (first :: rest) ns =
            some (Except.error (Error.PluralTypeMissmatch k ns)))
    ∧ ((∀ k ∈ first.get_keys,
        (countTypes ((mergedFor (first :: rest) k).getD ∅)).card ≤ 1) →
      ∃ m, Locale.check_locales_inner (first :: rest) ns = some (Except.ok m)) := by
  constructor
  · rintro ⟨k₀, hk₀, hP⟩
    have hex : ∃ p ∈ first.keys,
        1 < (countTypes ((mergedFor (first :: rest) p.1).getD ∅)).card := by
      obtain ⟨p, hp, hp1⟩ := List.mem_map.mp ((mem_get_keys_iff first k₀).mp hk₀)
      refine ⟨p, hp, ?_⟩
      rw [hp1]
      exact hP
    obtain ⟨frontK, q, backK, heq, hq, hfrontK⟩ :=
      @exists_first_split (Key × ParsedValue)
        (fun p => 1 < (countTypes ((mergedFor (first :: rest) p.1).getD ∅)).card)
        (fun p => Classical.dec _)
        first.keys hex
    cases hm : mergedFor (first :: rest) q.1 with
    | none =>
      rw [hm] at hq
      simp [countTypes_empty] at hq
    | some s =>
      have hs : 1 < (countTypes s).card := by
        rw [hm] at hq
        simpa using hq
      refine ⟨q.1, hq, ?_⟩
      simp only [Locale.check_locales_inner]
      rw [checkLoop_char first rest ns hnd hset]
      simp only [exceptOkBind]
      rw [heq, List.map_append, List.map_cons]
      have herr := pluralPhase_error ns
        (frontK.map (fun p => (p.1, mergedFor (first :: rest) p.1)))
        q.1 s (backK.map (fun p => (p.1, mergedFor (first :: rest) p.1)))
        (by
          intro p hp
          obtain ⟨y, hy, hyp⟩ := List.mem_map.mp hp
          have := hfrontK y hy
          rw [← hyp]
          simpa using this)
        hs
      rw [hm]
      rw [herr]
      rfl
  · intro h
    exact ⟨_, check_locales_inner_ok_char first rest ns hnd hset h⟩

theorem plural_type_mismatch_behavior_witness :
    ∃ k, 1 < (countTypes ((mergedFor
        [⟨"en", [("a", ParsedValue.plural PluralType.cardinal ParsedValueList.nil)]⟩,
          ⟨"fr", [("a", ParsedValue.plural PluralType.ordinal ParsedValueList.nil)]⟩]
        k).getD ∅)).card
      ∧ Locale.check_locales_inner
          [⟨"en", [("a", ParsedValue.plural PluralType.cardinal ParsedValueList.nil)]⟩,
            ⟨"fr", [("a", ParsedValue.plural PluralType.ordinal ParsedValueList.nil)]⟩]
          none =
        some (Except.error (Error.PluralTypeMissmatch k none)) :=
  (plural_type_mismatch_behavior
    ⟨"en", [("a", ParsedValue.plural PluralType.cardinal ParsedValueList.nil)]⟩
    [⟨"fr", [("a", ParsedValue.plural PluralType.ordinal ParsedValueList.nil)]⟩]
    none (by decide) (by decide)).1 (by decide)

/-- C4: for a translation key whose merged set contains a `Count` entry and
whose taxonomy check passes, `check_locales_inner` removes every `Variable`
entry named with the reserved implicit-count alias `"var_count"`, so the
resulting set contains the `Count` entry and no `Variable` entry for the
reserved name, and unification succeeds rather than erroring. -/
theorem count_drops_reserved_variable (first : Locale) (rest : List Locale)
    (ns : Option String) (k : Key) (v : ParsedValue)
    (hnd : (first.keys.map Prod.fst).Nodup)
    (hset : ∀ l ∈ rest, l.get_keys = first.get_keys)
    (hmm : ∀ k ∈ first.get_keys,
      (countTypes ((mergedFor (first :: rest) k).getD ∅)).card ≤ 1)
    (hmem : (k, v) ∈ first.keys)
    (hcount : countTypes ((mergedFor (first :: rest) k).getD ∅) ≠ ∅) :
    ∃ m s, Locale.check_locales_inner (first :: rest) ns = some (Except.ok m)
      ∧ mergedFor (first :: rest) k = some s
      ∧ assocLookup m k = some (LocaleValue.Builder (retainNonVarCount s))
      ∧ InterpolateKey.Variable "var_count" ∉ retainNonVarCount s
      ∧ ∃ t, InterpolateKey.Count t ∈ retainNonVarCount s := by
  cases hm : mergedFor (first :: rest) k with
  | none =>
    rw [hm] at hcount
    simp [countTypes_empty] at hcount
  | some s =>
    have hcount' : countTypes s ≠ ∅ := by
      rw [hm] at hcount
      simpa using hcount
    refine ⟨_, s, check_locales_inner_ok_char first rest ns hnd hset hmm, rfl,
      ?_, ?_, exists_count_mem_retain hcount'⟩
    · rw [assocLookup_finalValue first rest k v hmem]
      unfold finalValue processedOpt
      rw [hm]
      simp [LocaleValue.new, hcount']
    · simp [retainNonVarCount, Finset.mem_filter]

theorem count_drops_reserved_variable_witness :
    ∃ m s, Locale.check_locales_inner
        [⟨"en", [("a", ParsedValue.plural PluralType.cardinal
          (ParsedValueList.cons (ParsedValue.var "var_count") ParsedValueList.nil))]⟩]
        none = some (Except.ok m)
      ∧ mergedFor
          [⟨"en", [("a", ParsedValue.plural PluralType.cardinal
            (ParsedValueList.cons (ParsedValue.var "var_count") ParsedValueList.nil))]⟩]
          "a" = some s
      ∧ assocLookup m "a" = some (LocaleValue.Builder (retainNonVarCount s))
      ∧ InterpolateKey.Variable "var_count" ∉ retainNonVarCount s
      ∧ ∃ t, InterpolateKey.Count t ∈ retainNonVarCount s :=
  count_drops_reserved_variable
    ⟨"en", [("a", ParsedValue.plural PluralType.cardinal
      (ParsedValueList.cons (ParsedValue.var "var_count") ParsedValueList.nil))]⟩
    [] none "a"
    (ParsedValue.plural PluralType.cardinal
      (ParsedValueList.cons (ParsedValue.var "var_count") ParsedValueList.nil))
    (by decide) (by decide) (by decide) (List.mem_cons_self _ _) (by decide)

/-- C5: in the `BuildersKeysInner` produced by a successful
`check_locales_inner`, every translation key whose final merged
`InterpolateKey` set is empty is mapped to `LocaleValue::String`, and every
key whose final set is non-empty is mapped to `LocaleValue::Builder` of
exactly that set. -/
theorem final_sets_classified (first : Locale) (rest : List Locale)
    (ns : Option String)
    (hnd : (first.keys.map Prod.fst).Nodup)
    (hset : ∀ l ∈ rest, l.get_keys = first.get_keys)
    (hmm : ∀ k ∈ first.get_keys,
      (countTypes ((mergedFor (first :: rest) k).getD ∅)).card ≤ 1) :
    ∃ m, Locale.check_locales_inner (first :: rest) ns = some (Except.ok m)
      ∧ ∀ k v, (k, v) ∈ first.keys →
        ((processedOpt (mergedFor (first :: rest) k)).getD ∅ = ∅ →
          assocLookup m k = some LocaleValue.String)
        ∧ (((processedOpt (mergedFor (first :: rest) k)).getD ∅).Nonempty →
          assocLookup m k = some (LocaleValue.Builder
            ((processedOpt (mergedFor (first :: rest) k)).getD ∅))) := by
  refine ⟨_, check_locales_inner_ok_char first rest ns hnd hset hmm, ?_⟩
  intro k v hmem
  have h1 := assocLookup_finalValue first rest k v hmem
  cases hm : mergedFor (first :: rest) k with
  | none =>
    constructor
    · intro _
      rw [h1]
      unfold finalValue
      rw [hm]
      rfl
    · intro hne
      exfalso
      simp [processedOpt] at hne
  | some s =>
    have hsne : s.Nonempty := goodOpt_mergedFor (first :: rest) k s hm
    have hfinne : ((processedOpt (some s)).getD ∅).Nonempty := by
      have hfin : (processedOpt (some s)).getD ∅ =
          if countTypes s = ∅ then s else retainNonVarCount s := by
        simp [processedOpt]
      rw [hfin]
      split
      · exact hsne
      · next hc => exact retainNonVarCount_nonempty hc
    constructor
    · intro hemp
      exfalso
      exact Finset.not_nonempty_empty (hemp ▸ hfinne)
    · intro _
      rw [h1]
      unfold finalValue
      rw [hm]
      rfl

theorem final_sets_classified_witness :
    ∃ m, Locale.check_locales_inner
        [⟨"en", [("a", ParsedValue.lit "x"), ("b", ParsedValue.var "name")]⟩]
        none = some (Except.ok m)
      ∧ assocLookup m "a" = some LocaleValue.String
      ∧ assocLookup m "b" =
          some (LocaleValue.Builder {InterpolateKey.Variable "name"}) := by
  obtain ⟨m, hok, hcls⟩ := final_sets_classified
    ⟨"en", [("a", ParsedValue.lit "x"), ("b", ParsedValue.var "name")]⟩ [] none
    (by decide) (by decide) (by decide)
  refine ⟨m, hok, ?_, ?_⟩
  · exact (hcls "a" (ParsedValue.lit "x") (List.mem_cons_self _ _)).1 (by decide)
  · have hb := (hcls "b" (ParsedValue.var "name")
      (List.mem_cons_of_mem _ (List.mem_cons_self _ _))).2 (by decide)
    have heq : (processedOpt (mergedFor
        [⟨"en", [("a", ParsedValue.lit "x"), ("b", ParsedValue.var "name")]⟩]
        "b")).getD ∅ = {InterpolateKey.Variable "name"} := by decide
    rw [heq] at hb
    exact hb

/-- C10: a translation key whose merged `InterpolateKey` set contains no
`Count` entry is left untouched by the plural pass of `check_locales_inner`:
a `Variable` entry named with the reserved alias `"var_count"` is retained in
the resulting `Builder` set — the reserved-name removal applies only to keys
that also carry a `Count` entry. -/
theorem no_count_leaves_set_untouched (first : Locale) (rest : List Locale)
    (ns : Option String) (k : Key) (v : ParsedValue)
    (hnd : (first.keys.map Prod.fst).Nodup)
    (hset : ∀ l ∈ rest, l.get_keys = first.get_keys)
    (hmm : ∀ k ∈ first.get_keys,
      (countTypes ((mergedFor (first :: rest) k).getD ∅)).card ≤ 1)
    (hmem : (k, v) ∈ first.keys)
    (hnone : countTypes ((mergedFor (first :: rest) k).getD ∅) = ∅) :
    ∃ m, Locale.check_locales_inner (first :: rest) ns = some (Except.ok m)
      ∧ assocLookup m k = some (LocaleValue.new (mergedFor (first :: rest) k))
      ∧ ∀ s, mergedFor (first :: rest) k = some s →
          InterpolateKey.Variable "var_count" ∈ s →
          assocLookup m k = some (LocaleValue.Builder s) := by
  have h1 := assocLookup_finalValue first rest k v hmem
  have h2 : finalValue (first :: rest) k =
      LocaleValue.new (mergedFor (first :: rest) k) := by
    cases hm : mergedFor (first :: rest) k with
    | none =>
      unfold finalValue
      rw [hm]
      rfl
    | some s =>
      have hc : countTypes s = ∅ := by
        rw [hm] at hnone
        simpa using hnone
      unfold finalValue processedOpt
      rw [hm]
      simp [hc]
  refine ⟨_, check_locales_inner_ok_char first rest ns hnd hset hmm, ?_, ?_⟩
  · rw [h1, h2]
  · intro s hm _
    rw [h1, h2, hm]
    rfl

theorem no_count_leaves_set_untouched_witness :
    ∃ m, Locale.check_locales_inner
        [⟨"en", [("a", ParsedValue.seq
          (ParsedValueList.cons (ParsedValue.var "var_count")
            (ParsedValueList.cons (ParsedValue.var "x") ParsedValueList.nil)))]⟩]
        none = some (Except.ok m)
      ∧ assocLookup m "a" = some (LocaleValue.Builder
          {InterpolateKey.Variable "var_count", InterpolateKey.Variable "x"}) := by
  obtain ⟨m, hok, _, huntouched⟩ := no_count_leaves_set_untouched
    ⟨"en", [("a", ParsedValue.seq
      (ParsedValueList.cons (ParsedValue.var "var_count")
        (ParsedValueList.cons (ParsedValue.var "x") ParsedValueList.nil)))]⟩
    [] none "a"
    (ParsedValue.seq
      (ParsedValueList.cons (ParsedValue.var "var_count")
        (ParsedValueList.cons (ParsedValue.var "x") ParsedValueList.nil)))
    (by decide) (by decide) (by decide) (List.mem_cons_self _ _) (by decide)
  exact ⟨m, hok, huntouched
    {InterpolateKey.Variable "var_count", InterpolateKey.Variable "x"}
    (by decide) (by decide)⟩

theorem finalValue_perm {locales locales₂ : List Locale}
    (h : locales.Perm locales₂) (k : Key) :
    finalValue locales k = finalValue locales₂ k := by
  unfold finalValue
  rw [mergedFor_perm h k]

/-- C7: for every locale group with identical key sets and compatible
interpolation usage, `check_locales_inner` succeeds and produces exactly one
`LocaleValue` per key, and the resulting `BuildersKeysInner` (as a map) is
identical for every permutation of the locale list — ordering can only affect
error messages on failure. -/
theorem unifier_deterministic_up_to_permutation (first : Locale)
    (rest : List Locale) (ns : Option String)
    (hall : ∀ l ∈ first :: rest, l.get_keys = first.get_keys)
    (hnds : ∀ l ∈ first :: rest, (l.keys.map Prod.fst).Nodup)
    (hmm : ∀ k ∈ first.get_keys,
      (countTypes ((mergedFor (first :: rest) k).getD ∅)).card ≤ 1) :
    ∃ m, Locale.check_locales_inner (first :: rest) ns = some (Except.ok m)
      ∧ (m.map Prod.fst).Nodup
      ∧ (m.map Prod.fst).toFinset = first.get_keys
      ∧ ∀ locales₂, (first :: rest).Perm locales₂ →
          ∃ m₂, Locale.check_locales_inner locales₂ ns = some (Except.ok m₂)
            ∧ ∀ k, assocLookup m₂ k = assocLookup m k := by
  have hnd : (first.keys.map Prod.fst).Nodup :=
    hnds first (List.mem_cons_self _ _)
  have hset : ∀ l ∈ rest, l.get_keys = first.get_keys :=
    fun l hl => hall l (List.mem_cons_of_mem _ hl)
  have hmapfst : ∀ (g : Key → LocaleValue) (keysL : List (Key × ParsedValue)),
      (keysL.map (fun p => (p.1, g p.1))).map Prod.fst = keysL.map Prod.fst := by
    intro g keysL
    rw [List.map_map]
    rfl
  refine ⟨_, check_locales_inner_ok_char first rest ns hnd hset hmm, ?_, ?_, ?_⟩
  · rw [hmapfst (finalValue (first :: rest))]
    exact hnd
  · rw [hmapfst (finalValue (first :: rest))]
    rfl
  · intro locales₂ hperm
    cases locales₂ with
    | nil =>
      have := hperm.length_eq
      simp at this
    | cons first₂ rest₂ =>
      have hfirst₂mem : first₂ ∈ first :: rest :=
        hperm.mem_iff.mpr (List.mem_cons_self _ _)
      have hfirst₂ : first₂.get_keys = first.get_keys := hall first₂ hfirst₂mem
      have hset₂ : ∀ l ∈ rest₂, l.get_keys = first₂.get_keys := by
        intro l hl
        rw [hfirst₂]
        exact hall l (hperm.mem_iff.mpr (List.mem_cons_of_mem _ hl))
      have hnd₂ : (first₂.keys.map Prod.fst).Nodup := hnds first₂ hfirst₂mem
      have hmm₂ : ∀ k ∈ first₂.get_keys,
          (countTypes ((mergedFor (first₂ :: rest₂) k).getD ∅)).card ≤ 1 := by
        intro k hk
        rw [← mergedFor_perm hperm k]
        exact hmm k (hfirst₂ ▸ hk)
      refine ⟨_, check_locales_inner_ok_char first₂ rest₂ ns hnd₂ hset₂ hmm₂, ?_⟩
      intro k
      have h₂ := assocLookup_map_fn first₂.keys
        (fun k' => finalValue (first₂ :: rest₂) k') k
      have h₁ := assocLookup_map_fn first.keys
        (fun k' => finalValue (first :: rest) k') k
      have hmemiff : (k ∈ first₂.keys.map Prod.fst) ↔
          (k ∈ first.keys.map Prod.fst) := by
        rw [← mem_get_keys_iff, ← mem_get_keys_iff, hfirst₂]
      have hfv : finalValue (first₂ :: rest₂) k = finalValue (first :: rest) k :=
        (finalValue_perm hperm k).symm
      refine Eq.trans (Eq.trans h₂ ?_) h₁.symm
      rw [hfv]
      exact if_congr hmemiff rfl rfl

theorem unifier_deterministic_up_to_permutation_witness :
    ∃ m, Locale.check_locales_inner
        [⟨"en", [("a", ParsedValue.var "name")]⟩,
          ⟨"fr", [("a", ParsedValue.comp "b" (ParsedValue.lit "x"))]⟩]
        none = some (Except.ok m)
      ∧ (m.map Prod.fst).Nodup
      ∧ ∃ m₂, Locale.check_locales_inner
          [⟨"fr", [("a", ParsedValue.comp "b" (ParsedValue.lit "x"))]⟩,
            ⟨"en", [("a", ParsedValue.var "name")]⟩]
          none = some (Except.ok m₂)
        ∧ ∀ k, assocLookup m₂ k = assocLookup m k := by
  obtain ⟨m, hok, hnd, _, hperm⟩ := unifier_deterministic_up_to_permutation
    ⟨"en", [("a", ParsedValue.var "name")]⟩
    [⟨"fr", [("a", ParsedValue.comp "b" (ParsedValue.lit "x"))]⟩]
    none (by decide) (by decide) (by decide)
  obtain ⟨m₂, hok₂, heq₂⟩ := hperm
    [⟨"fr", [("a", ParsedValue.comp "b" (ParsedValue.lit "x"))]⟩,
      ⟨"en", [("a", ParsedValue.var "name")]⟩]
    (List.Perm.swap _ _ _)
  exact ⟨m, hok, hnd, m₂, hok₂, heq₂⟩

/-- C2 counterexample: when the reference locale and the other locale each
have a key the other lacks (here `{"a"}` versus `{"b"}`), the `keys` field of
the produced `MissingKeysInLocale` is `{"a"}` — the reference-minus-other
difference — and not the symmetric-difference set `{"a", "b"}`. -/
theorem missing_keys_not_symmetric_difference :
    Locale.check_locales_inner
        [⟨"en", [("a", ParsedValue.lit "x")]⟩, ⟨"fr", [("b", ParsedValue.lit "y")]⟩]
        none =
      some (Except.error (Error.MissingKeysInLocale none {"a"} "fr"))
    ∧ ({"a"} : Finset String) ≠
        (Locale.get_keys ⟨"en", [("a", ParsedValue.lit "x")]⟩ \
            Locale.get_keys ⟨"fr", [("b", ParsedValue.lit "y")]⟩) ∪
          (Locale.get_keys ⟨"fr", [("b", ParsedValue.lit "y")]⟩ \
            Locale.get_keys ⟨"en", [("a", ParsedValue.lit "x")]⟩) := by
  decide

/-- C2 (amended): when some locale after the reference has a different key
set, `check_locales_inner` fails with `MissingKeysInLocale` whose `keys` field
is the reference-minus-other difference when that is non-empty (blamed on the
other locale's name), and otherwise the other-minus-reference difference
(blamed on the reference locale's name); exactly the first mismatching locale
in list order triggers the error and the remaining locales are not checked. -/
theorem check_locales_inner_first_missmatch_reported (first : Locale)
    (front : List Locale) (bad : Locale) (back : List Locale) (ns : Option String)
    (hfront : ∀ l ∈ front, l.get_keys = first.get_keys)
    (hbad : bad.get_keys ≠ first.get_keys) :
    Locale.check_locales_inner (first :: (front ++ bad :: back)) ns =
      some (Except.error (Error.MissingKeysInLocale ns
        (if first.get_keys \ bad.get_keys = ∅
          then bad.get_keys \ first.get_keys
          else first.get_keys \ bad.get_keys)
        (if first.get_keys \ bad.get_keys = ∅ then first.name else bad.name))) := by
  rw [check_locales_inner_missmatch first front bad back ns hfront hbad]
  unfold Locale.key_missmatch
  split <;> rfl

theorem check_locales_inner_first_missmatch_reported_witness :
    Locale.check_locales_inner
        [⟨"en", [("a", ParsedValue.lit "x"), ("c", ParsedValue.lit "z")]⟩,
          ⟨"fr", [("b", ParsedValue.lit "y"), ("c", ParsedValue.lit "w")]⟩,
          ⟨"de", [("a", ParsedValue.lit "v")]⟩]
        none =
      some (Except.error (Error.MissingKeysInLocale none
        (if Locale.get_keys ⟨"en", [("a", ParsedValue.lit "x"), ("c", ParsedValue.lit "z")]⟩ \
            Locale.get_keys ⟨"fr", [("b", ParsedValue.lit "y"), ("c", ParsedValue.lit "w")]⟩ = ∅
          then Locale.get_keys ⟨"fr", [("b", ParsedValue.lit "y"), ("c", ParsedValue.lit "w")]⟩ \
            Locale.get_keys ⟨"en", [("a", ParsedValue.lit "x"), ("c", ParsedValue.lit "z")]⟩
          else Locale.get_keys ⟨"en", [("a", ParsedValue.lit "x"), ("c", ParsedValue.lit "z")]⟩ \
            Locale.get_keys ⟨"fr", [("b", ParsedValue.lit "y"), ("c", ParsedValue.lit "w")]⟩)
        (if Locale.get_keys ⟨"en", [("a", ParsedValue.lit "x"), ("c", ParsedValue.lit "z")]⟩ \
            Locale.get_keys ⟨"fr", [("b", ParsedValue.lit "y"), ("c", ParsedValue.lit "w")]⟩ = ∅
          then "en" else "fr"))) :=
  check_locales_inner_first_missmatch_reported
    ⟨"en", [("a", ParsedValue.lit "x"), ("c", ParsedValue.lit "z")]⟩ []
    ⟨"fr", [("b", ParsedValue.lit "y"), ("c", ParsedValue.lit "w")]⟩
    [⟨"de", [("a", ParsedValue.lit "v")]⟩] none
    (by intro l h; cases h) (by decide)

/-! ### C8: whole-run abort on the first error -/

theorem checkNamespaces_error (front : List Namespace) (n : Namespace)
    (back : List Namespace) (e : Error)
    (hfront : ∀ n' ∈ front, ∃ k,
      Locale.check_locales_inner n'.locales (some n'.key) = some (Except.ok k))
    (hn : Locale.check_locales_inner n.locales (some n.key) =
      some (Except.error e)) :
    checkNamespaces (front ++ n :: back) = some (Except.error e) := by
  induction front with
  | nil => simp [checkNamespaces, hn]
  | cons n' front ih =>
    obtain ⟨k, hk⟩ := hfront n' (List.mem_cons_self _ _)
    have hrest := ih (fun x hx => hfront x (List.mem_cons_of_mem _ hx))
    simp [checkNamespaces, hk, hrest]

theorem checkNamespaces_ok (nss : List Namespace)
    (ks : List (Key × BuildersKeysInner))
    (h : checkNamespaces nss = some (Except.ok ks)) :
    ∀ n ∈ nss, ∃ k,
      Locale.check_locales_inner n.locales (some n.key) = some (Except.ok k) := by
  induction nss generalizing ks with
  | nil =>
    intro n hn
    cases hn
  | cons n' nss ih =>
    intro n hn
    cases hc : Locale.check_locales_inner n'.locales (some n'.key) with
    | none =>
      rw [checkNamespaces, hc] at h
      cases h
    | some r =>
      cases r with
      | error e =>
        rw [checkNamespaces, hc] at h
        simp at h
      | ok k' =>
        rw [checkNamespaces, hc] at h
        cases hr : checkNamespaces nss with
        | none =>
          rw [hr] at h
          simp at h
        | some r₂ =>
          cases r₂ with
          | error e₂ =>
            rw [hr] at h
            simp at h
          | ok ks₂ =>
            rcases List.mem_cons.mp hn with he | hm
            · exact he ▸ ⟨k', hc⟩
            · exact ih ks₂ hr n hm

theorem loadLocales_error (fs : String → FileContent) (mkPath : String → String)
    (front : List Key) (lk : Key) (back : List Key) (e : Error)
    (hfront : ∀ l' ∈ front, ∃ loc, Locale.new fs (mkPath l') l' = Except.ok loc)
    (hlk : Locale.new fs (mkPath lk) lk = Except.error e) :
    loadLocales fs mkPath (front ++ lk :: back) = Except.error e := by
  induction front with
  | nil => simp [loadLocales, hlk, exceptErrorBind]
  | cons l' front ih =>
    obtain ⟨loc, hloc⟩ := hfront l' (List.mem_cons_self _ _)
    have hrest := ih (fun x hx => hfront x (List.mem_cons_of_mem _ hx))
    simp [loadLocales, hloc, exceptOkBind, hrest, exceptErrorBind]

theorem buildNamespaces_error (fs : String → FileContent) (locales_dir : String)
    (locale_keys : List Key) (front : List Key) (nk : Key) (back : List Key)
    (e : Error)
    (hfront : ∀ nk' ∈ front, ∃ n,
      Namespace.new fs locales_dir nk' locale_keys = Except.ok n)
    (hnk : Namespace.new fs locales_dir nk locale_keys = Except.error e) :
    buildNamespaces fs locales_dir locale_keys (front ++ nk :: back) =
      Except.error e := by
  induction front with
  | nil => simp [buildNamespaces, hnk, exceptErrorBind]
  | cons nk' front ih =>
    obtain ⟨n, hn⟩ := hfront nk' (List.mem_cons_self _ _)
    have hrest := ih (fun x hx => hfront x (List.mem_cons_of_mem _ hx))
    simp [buildNamespaces, hn, exceptOkBind, hrest, exceptErrorBind]

/-- C8: if loading any locale file or unifying any namespace or locale group
fails, `check_locales` (and `LocalesOrNamespaces::new`) returns that first
error and no `BuildersKeys` value is produced — there is no partial or
best-effort schema for the namespaces or locales that did succeed. -/
theorem abort_on_first_error :
    (∀ (front : List Namespace) (n : Namespace) (back : List Namespace)
        (e : Error),
      (∀ n' ∈ front, ∃ k,
        Locale.check_locales_inner n'.locales (some n'.key) =
          some (Except.ok k)) →
      Locale.check_locales_inner n.locales (some n.key) =
        some (Except.error e) →
      Locale.check_locales
          (LocalesOrNamespaces.NameSpaces (front ++ n :: back)) =
        some (Except.error e))
    ∧ (∀ (ls : List Locale) (e : Error),
      Locale.check_locales_inner ls none = some (Except.error e) →
      Locale.check_locales (LocalesOrNamespaces.Locales ls) =
        some (Except.error e))
    ∧ (∀ (nss : List Namespace) (b : BuildersKeys),
      Locale.check_locales (LocalesOrNamespaces.NameSpaces nss) =
        some (Except.ok b) →
      ∀ n ∈ nss, ∃ k,
        Locale.check_locales_inner n.locales (some n.key) = some (Except.ok k))
    ∧ (∀ (fs : String → FileContent) (cfg : ConfigFile) (front : List Key)
        (lk : Key) (back : List Key) (e : Error),
      cfg.name_spaces = none →
      cfg.locales = front ++ lk :: back →
      (∀ l' ∈ front, ∃ loc,
        Locale.new fs (flatLocalePath cfg.locales_dir l') l' = Except.ok loc) →
      Locale.new fs (flatLocalePath cfg.locales_dir lk) lk = Except.error e →
      LocalesOrNamespaces.new fs cfg = Except.error e)
    ∧ (∀ (fs : String → FileContent) (cfg : ConfigFile) (nks front : List Key)
        (nk : Key) (back : List Key) (e : Error),
      cfg.name_spaces = some nks →
      nks = front ++ nk :: back →
      (∀ nk' ∈ front, ∃ n,
        Namespace.new fs cfg.locales_dir nk' cfg.locales = Except.ok n) →
      Namespace.new fs cfg.locales_dir nk cfg.locales = Except.error e →
      LocalesOrNamespaces.new fs cfg = Except.error e) := by
  refine ⟨?_, ?_, ?_, ?_, ?_⟩
  · intro front n back e hfront hn
    simp only [Locale.check_locales]
    rw [checkNamespaces_error front n back e hfront hn]
    rfl
  · intro ls e h
    simp only [Locale.check_locales]
    rw [h]
    rfl
  · intro nss b h n hn
    simp only [Locale.check_locales] at h
    cases hc : checkNamespaces nss with
    | none =>
      rw [hc] at h
      cases h
    | some r =>
      cases r with
      | error e =>
        rw [hc] at h
        simp [Except.map] at h
      | ok ks =>
        exact checkNamespaces_ok nss ks hc n hn
  · intro fs cfg front lk back e hns hlocs hfront hlk
    simp only [LocalesOrNamespaces.new, hns]
    rw [hlocs, loadLocales_error fs _ front lk back e hfront hlk]
    rfl
  · intro fs cfg nks front nk back e hns hnks hfront hnk
    simp only [LocalesOrNamespaces.new, hns]
    rw [hnks, buildNamespaces_error fs _ _ front nk back e hfront hnk]
    rfl

theorem abort_on_first_error_witness :
    Locale.check_locales (LocalesOrNamespaces.NameSpaces
        [⟨"common", [⟨"en", [("a", ParsedValue.lit "x")]⟩,
          ⟨"fr", []⟩]⟩]) =
      some (Except.error (Error.MissingKeysInLocale (some "common") {"a"} "fr"))
    ∧ LocalesOrNamespaces.new (fun _ => FileContent.missing)
        ⟨["en"], none, "dir"⟩ =
      Except.error (Error.LocaleFileNotFound "dir/en.json") := by
  constructor
  · have h := abort_on_first_error.1 []
      ⟨"common", [⟨"en", [("a", ParsedValue.lit "x")]⟩, ⟨"fr", []⟩]⟩ []
      (Error.MissingKeysInLocale (some "common") {"a"} "fr")
      (by intro n' h'; cases h') (by decide)
    exact h
  · exact abort_on_first_error.2.2.2.1 (fun _ => FileContent.missing)
      ⟨["en"], none, "dir"⟩ [] "en" []
      (Error.LocaleFileNotFound "dir/en.json") rfl rfl
      (by intro l' h'; cases h') rfl

end LoadLocales
